import Mathlib

/-!
# Verification of the Weimar Jazz phrase-extraction pipeline

Shallow embedding of `scripts/extract_weimar_phrases.py`: the phrase
boundary resolver, the chord aligner, the phrase normalizer and the
length-bucketing aggregator.  Real-valued quantities (onsets, durations,
pitches) are modelled as rationals; Python's `round(x, 4)` is modelled as
round-half-to-even at four decimal places, and Python's `int(x)` as
truncation toward zero.
-/

set_option linter.unusedVariables false

/-- Phrase length lower bound (`MIN_PHRASE_LENGTH` in the script). -/
def MIN_PHRASE_LENGTH : Nat := 3

/-- Phrase length upper bound (`MAX_PHRASE_LENGTH` in the script). -/
def MAX_PHRASE_LENGTH : Nat := 12

/-- A melody note row (`MelodyNote` named tuple in the script). -/
structure MelodyNote where
  eventid : Int
  pitch : ℚ
  duration : ℚ
  onset : ℚ
  bar : Int
  beat : Int
  deriving DecidableEq, Repr

/-- A chord event row (`ChordEvent` named tuple in the script). -/
structure ChordEvent where
  onset : ℚ
  bar : Int
  beat : Int
  chord : String
  bass_pitch : Int
  deriving DecidableEq, Repr

/-- Per-solo metadata (`solo_info` row: performer, title, key). -/
structure SoloInfo where
  performer : String
  title : String
  key : String
  deriving DecidableEq, Repr

/-- One solo of the corpus: its id, metadata, and the three per-solo
queries (`get_phrase_boundaries`, `get_melody_notes`, `get_chords`). -/
structure Solo where
  melid : Int
  info : SoloInfo
  boundaries : List (Int × Int)
  notes : List MelodyNote
  chords : List ChordEvent
  deriving DecidableEq, Repr

/-- An aligned chord entry of the output (`{"offset": .., "chord": .., "bass": ..}`). -/
structure RelChord where
  offset : ℚ
  chord : String
  bass : Int
  deriving DecidableEq, Repr

/-- The metadata block of an output phrase record. -/
structure PhraseMeta where
  performer : String
  title : String
  key : String
  startBar : Option Int
  deriving DecidableEq, Repr

/-- One output phrase record (`phrase_data` dict in the script). -/
structure PhraseRecord where
  intervals : List Int
  durations : List ℚ
  sourceId : String
  chords : List RelChord
  metadata : PhraseMeta
  deriving DecidableEq, Repr

/-- Addition on `ℚ`, written out on numerators and denominators so that it
evaluates by kernel reduction (the library's `Rat.add` is irreducible);
`qAdd_eq` below identifies it with `+`. -/
def qAdd (a b : ℚ) : ℚ := Rat.divInt (a.num * b.den + b.num * a.den) (a.den * b.den)

/-- Subtraction on `ℚ` by kernel-reducible arithmetic; equals `-` by `qSub_eq`. -/
def qSub (a b : ℚ) : ℚ := Rat.divInt (a.num * b.den - b.num * a.den) (a.den * b.den)

/-- Multiplication on `ℚ` by kernel-reducible arithmetic; equals `*` by `qMul_eq`. -/
def qMul (a b : ℚ) : ℚ := Rat.divInt (a.num * b.num) (a.den * b.den)

/-- Floor of a rational, computed by floor division of the numerator. -/
def ratFloor (q : ℚ) : Int := Int.fdiv q.num q.den

/-- Ceiling of a rational, computed from `ratFloor`. -/
def ratCeil (q : ℚ) : Int := -ratFloor (-q)

/-- Python's `int(x)`: truncation toward zero. -/
def pyInt (q : ℚ) : Int := if 0 ≤ q then ratFloor q else ratCeil q

/-- Round-half-to-even to the nearest integer (Python's `round` tie rule). -/
def rhe (q : ℚ) : Int :=
  if qSub q (ratFloor q : Int) < mkRat 1 2 then ratFloor q
  else if mkRat 1 2 < qSub q (ratFloor q : Int) then ratFloor q + 1
  else if ratFloor q % 2 = 0 then ratFloor q else ratFloor q + 1

/-- Python's `round(x, 4)`: round half to even at four decimal places. -/
def round4 (q : ℚ) : ℚ := Rat.divInt (rhe (qMul q 10000)) 10000

/-- One step of the single scan in `get_chords_for_phrase`: the accumulator
carries `(phrase_chords, last_chord_before)`. -/
def chordStep (start_onset end_onset : ℚ)
    (acc : List ChordEvent × Option ChordEvent) (c : ChordEvent) :
    List ChordEvent × Option ChordEvent :=
  if c.onset < start_onset then (acc.1, some c)
  else if c.onset ≤ end_onset then (acc.1 ++ [c], acc.2)
  else acc

/-- `get_chords_for_phrase`: chords that fall within the time range of a
phrase, with the chord active at phrase start prepended when needed. -/
def get_chords_for_phrase (all_chords : List ChordEvent)
    (phrase_notes : List MelodyNote) : List ChordEvent :=
  match phrase_notes with
  | [] => []
  | n0 :: rest =>
    let start_onset := n0.onset
    let lastNote := rest.getLastD n0
    let end_onset := qAdd lastNote.onset lastNote.duration
    let scanned := all_chords.foldl (chordStep start_onset end_onset) ([], none)
    match scanned.2, scanned.1 with
    | some c, [] => [c]
    | some c, p0 :: ps => if start_onset < p0.onset then c :: p0 :: ps else p0 :: ps
    | none, pcs => pcs

/-- Chord alignment as worded in the spec (§4.2): the chords whose onset
lies in the closed window, preceded by the last chord strictly before the
window start exactly when one exists and no collected chord already covers
the start. -/
def alignedChordsSpec (all_chords : List ChordEvent) (start_onset end_onset : ℚ) :
    List ChordEvent :=
  let within := all_chords.filter (fun c => decide (start_onset ≤ c.onset ∧ c.onset ≤ end_onset))
  let before := all_chords.filter (fun c => decide (c.onset < start_onset))
  match before.getLast?, within with
  | some c, [] => [c]
  | some c, p0 :: ps => if start_onset < p0.onset then c :: p0 :: ps else p0 :: ps
  | none, w => w

/-- `notes_to_intervals`: semitone offsets from the first note's pitch,
pitches truncated to integers first. -/
def notes_to_intervals (notes : List MelodyNote) : List Int :=
  match notes with
  | [] => []
  | n0 :: rest => (n0 :: rest).map (fun n => pyInt n.pitch - pyInt n0.pitch)

/-- `notes_to_durations`: durations rounded to 4 decimal places. -/
def notes_to_durations (notes : List MelodyNote) : List ℚ :=
  notes.map (fun n => round4 n.duration)

/-- `chords_to_relative`: chords as offsets from the phrase start onset. -/
def chords_to_relative (chords : List ChordEvent) (phrase_notes : List MelodyNote)
    (phrase_key : String) : List RelChord :=
  match phrase_notes, chords with
  | [], _ => []
  | _, [] => []
  | n0 :: _, c0 :: cs =>
    (c0 :: cs).map (fun c =>
      { offset := round4 (qSub c.onset n0.onset), chord := c.chord, bass := c.bass_pitch })

/-- The `note_by_index` lookup: `idx in note_by_index` holds exactly for
positions `0 ≤ idx < len(all_notes)`. -/
def noteAt (all_notes : List MelodyNote) (idx : Int) : Option MelodyNote :=
  if h : 0 ≤ idx ∧ idx.toNat < all_notes.length then
    some (all_notes.get ⟨idx.toNat, h.2⟩)
  else none

/-- Python's `range(s, e + 1)` over integers. -/
def intRange (s e : Int) : List Int :=
  (List.range (e + 1 - s).toNat).map (fun (i : Nat) => s + (i : Int))

/-- The note slice of a boundary pair: every index of `range(s, e+1)` that
is present in `note_by_index`, in order. -/
def phraseSlice (all_notes : List MelodyNote) (s e : Int) : List MelodyNote :=
  (intRange s e).filterMap (noteAt all_notes)

/-- `source_id = f"wjd:{melid}:{start_idx}-{end_idx}"`. -/
def mkSourceId (melid s e : Int) : String :=
  "wjd:" ++ toString melid ++ ":" ++ toString s ++ "-" ++ toString e

/-- The body of the per-boundary loop in `extract_phrases`: `none` when the
slice length fails the `[MIN, MAX]` filter, otherwise the phrase record. -/
def processBoundary (solo : Solo) (s e : Int) : Option PhraseRecord :=
  let phrase_notes := phraseSlice solo.notes s e
  if phrase_notes.length < MIN_PHRASE_LENGTH ∨ MAX_PHRASE_LENGTH < phrase_notes.length then
    none
  else
    some
      { intervals := notes_to_intervals phrase_notes
        durations := notes_to_durations phrase_notes
        sourceId := mkSourceId solo.melid s e
        chords := chords_to_relative (get_chords_for_phrase solo.chords phrase_notes)
                    phrase_notes solo.info.key
        metadata :=
          { performer := solo.info.performer
            title := solo.info.title
            key := solo.info.key
            startBar := phrase_notes.head?.map (fun n => n.bar) } }

/-- `defaultdict(list)` append: extend the bucket of `k` in place, creating
it at the end on first use. -/
def bucketAppend (m : List (Nat × List PhraseRecord)) (k : Nat) (v : PhraseRecord) :
    List (Nat × List PhraseRecord) :=
  match m with
  | [] => [(k, [v])]
  | kv :: rest =>
    if kv.1 = k then (kv.1, kv.2 ++ [v]) :: rest else kv :: bucketAppend rest k v

/-- Mutable state of `extract_phrases`: the bucket map and the counters. -/
structure ExtractState where
  buckets : List (Nat × List PhraseRecord)
  total : Nat
  skippedLength : Nat
  deriving DecidableEq, Repr

/-- One iteration of the boundary loop of `extract_phrases`. -/
def stepBoundary (solo : Solo) (st : ExtractState) (b : Int × Int) : ExtractState :=
  match processBoundary solo b.1 b.2 with
  | none => { st with skippedLength := st.skippedLength + 1 }
  | some r =>
    { st with
      buckets := bucketAppend st.buckets (phraseSlice solo.notes b.1 b.2).length r
      total := st.total + 1 }

/-- One iteration of the solo loop of `extract_phrases`. -/
def extractSolo (st : ExtractState) (solo : Solo) : ExtractState :=
  solo.boundaries.foldl (stepBoundary solo) st

/-- The full accumulation phase of `extract_phrases` over the corpus. -/
def extractState (solos : List Solo) : ExtractState :=
  solos.foldl extractSolo { buckets := [], total := 0, skippedLength := 0 }

/-- Ordered insertion by numeric key (used to model Python's `sorted` over
the bucket items; bucket keys are pairwise distinct, so any stable sort
produces this result). -/
def insertByKey (p : Nat × List PhraseRecord) :
    List (Nat × List PhraseRecord) → List (Nat × List PhraseRecord)
  | [] => [p]
  | q :: rest => if p.1 ≤ q.1 then p :: q :: rest else q :: insertByKey p rest

/-- Sort the bucket items ascending by key (`sorted(phrases_by_length.items())`). -/
def sortByKey : List (Nat × List PhraseRecord) → List (Nat × List PhraseRecord)
  | [] => []
  | p :: rest => insertByKey p (sortByKey rest)

/-- The output document of `extract_phrases`: `phrasesByLength` as an
ordered association list with string-encoded keys. -/
def extractPhrases (solos : List Solo) : List (String × List PhraseRecord) :=
  (sortByKey (extractState solos).buckets).map (fun kv => (toString kv.1, kv.2))

/-- The flat list of `(phrase_length, record)` pairs accepted by the run, in
discovery order (solo order, then boundary order). -/
def emittedOfSolo (solo : Solo) : List (Nat × PhraseRecord) :=
  solo.boundaries.filterMap (fun b =>
    (processBoundary solo b.1 b.2).map
      (fun r => ((phraseSlice solo.notes b.1 b.2).length, r)))

/-- All accepted `(phrase_length, record)` pairs of the corpus, in discovery order. -/
def emittedWithLen (solos : List Solo) : List (Nat × PhraseRecord) :=
  solos.flatMap emittedOfSolo

/-- Replay of the bucket construction over a flat emission list. -/
def buildBuckets (l : List (Nat × PhraseRecord)) : List (Nat × List PhraseRecord) :=
  l.foldl (fun m p => bucketAppend m p.1 p.2) []

/-- Lookup of one bucket, the empty list when the key is absent. -/
def bucketGet (m : List (Nat × List PhraseRecord)) (k : Nat) : List PhraseRecord :=
  match m.find? (fun kv => kv.1 == k) with
  | some kv => kv.2
  | none => []

/-- The boundaries a run skips for length, summed over the corpus. -/
def skippedCount (solos : List Solo) : Nat :=
  (solos.map (fun solo =>
    solo.boundaries.countP (fun b => (processBoundary solo b.1 b.2).isNone))).sum

/-- The worked example of the spec (§8): three notes at pitches 60, 63, 67,
onsets 0, 0.5, 1, each lasting half a beat. -/
def exNotes : List MelodyNote :=
  [{ eventid := 0, pitch := 60, duration := mkRat 1 2, onset := 0, bar := 1, beat := 1 },
   { eventid := 1, pitch := 63, duration := mkRat 1 2, onset := mkRat 1 2, bar := 1, beat := 2 },
   { eventid := 2, pitch := 67, duration := mkRat 1 2, onset := 1, bar := 1, beat := 3 }]

/-- The worked example's single chord event, sounding before the phrase. -/
def exChord : ChordEvent :=
  { onset := -1, bar := 0, beat := 1, chord := "Cmaj7", bass_pitch := 48 }

/-- The worked example's solo: one boundary `(0, 2)` covering all three notes. -/
def exSolo : Solo :=
  { melid := 1
    info := { performer := "Miles Davis", title := "So What", key := "D-dorian" }
    boundaries := [(0, 2)]
    notes := exNotes
    chords := [exChord] }

/-- The phrase record the worked example must produce. -/
def exRecord : PhraseRecord :=
  { intervals := [0, 3, 7]
    durations := [mkRat 1 2, mkRat 1 2, mkRat 1 2]
    sourceId := "wjd:1:0-2"
    chords := [{ offset := -1, chord := "Cmaj7", bass := 48 }]
    metadata :=
      { performer := "Miles Davis", title := "So What", key := "D-dorian"
        startBar := some 1 } }

/-- A three-note solo whose only boundary `(0, 5)` references the
out-of-range positions 3, 4 and 5. -/
def overrunSolo : Solo :=
  { melid := 2
    info := { performer := "Chet Baker", title := "My Funny Valentine", key := "C-min" }
    boundaries := [(0, 5)]
    notes :=
      [{ eventid := 0, pitch := 60, duration := 1, onset := 0, bar := 1, beat := 1 },
       { eventid := 1, pitch := 62, duration := 1, onset := 1, bar := 1, beat := 2 },
       { eventid := 2, pitch := 64, duration := 1, onset := 2, bar := 1, beat := 3 }]
    chords := [] }

/-- A solo with a two-note slice: its boundary must be length-skipped. -/
def shortSolo : Solo :=
  { melid := 3
    info := { performer := "Lee Morgan", title := "Ceora", key := "Ab-maj" }
    boundaries := [(0, 1)]
    notes :=
      [{ eventid := 0, pitch := 68, duration := 1, onset := 0, bar := 2, beat := 1 },
       { eventid := 1, pitch := 70, duration := 1, onset := 1, bar := 2, beat := 2 }]
    chords := [] }

/-! ## Arithmetic bridges: the kernel-reducible operations equal the library ones -/

theorem qAdd_eq (a b : ℚ) : qAdd a b = a + b := by
  have ha : ((a.den : ℚ)) ≠ 0 := by
    exact_mod_cast a.den_nz
  have hb : ((b.den : ℚ)) ≠ 0 := by
    exact_mod_cast b.den_nz
  have h1 : (a.num : ℚ) = a * a.den := by
    conv_rhs => lhs; rw [← Rat.num_div_den a]
    rw [div_mul_cancel₀ _ ha]
  have h2 : (b.num : ℚ) = b * b.den := by
    conv_rhs => lhs; rw [← Rat.num_div_den b]
    rw [div_mul_cancel₀ _ hb]
  rw [qAdd, Rat.divInt_eq_div]
  push_cast
  rw [div_eq_iff (mul_ne_zero ha hb), h1, h2]
  ring

theorem qSub_eq (a b : ℚ) : qSub a b = a - b := by
  have ha : ((a.den : ℚ)) ≠ 0 := by
    exact_mod_cast a.den_nz
  have hb : ((b.den : ℚ)) ≠ 0 := by
    exact_mod_cast b.den_nz
  have h1 : (a.num : ℚ) = a * a.den := by
    conv_rhs => lhs; rw [← Rat.num_div_den a]
    rw [div_mul_cancel₀ _ ha]
  have h2 : (b.num : ℚ) = b * b.den := by
    conv_rhs => lhs; rw [← Rat.num_div_den b]
    rw [div_mul_cancel₀ _ hb]
  rw [qSub, Rat.divInt_eq_div]
  push_cast
  rw [div_eq_iff (mul_ne_zero ha hb), h1, h2]
  ring

theorem qMul_eq (a b : ℚ) : qMul a b = a * b := by
  have ha : ((a.den : ℚ)) ≠ 0 := by
    exact_mod_cast a.den_nz
  have hb : ((b.den : ℚ)) ≠ 0 := by
    exact_mod_cast b.den_nz
  have h1 : (a.num : ℚ) = a * a.den := by
    conv_rhs => lhs; rw [← Rat.num_div_den a]
    rw [div_mul_cancel₀ _ ha]
  have h2 : (b.num : ℚ) = b * b.den := by
    conv_rhs => lhs; rw [← Rat.num_div_den b]
    rw [div_mul_cancel₀ _ hb]
  rw [qMul, Rat.divInt_eq_div]
  push_cast
  rw [div_eq_iff (mul_ne_zero ha hb), h1, h2]
  ring

theorem ratFloor_eq (q : ℚ) : ratFloor q = ⌊q⌋ := by
  rw [ratFloor, Rat.floor_def, Int.fdiv_eq_ediv _ (by exact_mod_cast Nat.zero_le q.den)]

theorem ratCeil_eq (q : ℚ) : ratCeil q = ⌈q⌉ := by
  rw [ratCeil, ratFloor_eq, Int.floor_neg, neg_neg]

theorem mkRat_half_eq : (mkRat 1 2 : ℚ) = 1 / 2 := by
  rw [Rat.mkRat_eq_divInt, Rat.divInt_eq_div]
  norm_num

/-- `rhe` written with the library floor and `1/2`. -/
theorem rhe_def (q : ℚ) :
    rhe q =
      if q - ⌊q⌋ < 1 / 2 then ⌊q⌋
      else if 1 / 2 < q - (⌊q⌋ : ℚ) then ⌊q⌋ + 1
      else if ⌊q⌋ % 2 = 0 then ⌊q⌋ else ⌊q⌋ + 1 := by
  rw [rhe, qSub_eq, ratFloor_eq, mkRat_half_eq]

theorem ratFloor_le_rhe (q : ℚ) : ⌊q⌋ ≤ rhe q := by
  rw [rhe_def]
  split_ifs <;> omega

theorem rhe_le_ratFloor_add_one (q : ℚ) : rhe q ≤ ⌊q⌋ + 1 := by
  rw [rhe_def]
  split_ifs <;> omega

theorem rhe_mono {a b : ℚ} (h : a ≤ b) : rhe a ≤ rhe b := by
  have hf : ⌊a⌋ ≤ ⌊b⌋ := Int.floor_le_floor h
  rcases lt_or_eq_of_le hf with hlt | heq
  · calc rhe a ≤ ⌊a⌋ + 1 := rhe_le_ratFloor_add_one a
    _ ≤ ⌊b⌋ := by omega
    _ ≤ rhe b := ratFloor_le_rhe b
  · rw [rhe_def, rhe_def, ← heq]
    have hab : a - (⌊a⌋ : ℚ) ≤ b - (⌊a⌋ : ℚ) := by linarith
    split_ifs <;> first | omega | linarith

theorem rhe_zero : rhe 0 = 0 := by decide

theorem rhe_nonneg {q : ℚ} (h : 0 ≤ q) : 0 ≤ rhe q := by
  have := rhe_mono h
  rw [rhe_zero] at this
  exact this

theorem rhe_nonpos {q : ℚ} (h : q ≤ 0) : rhe q ≤ 0 := by
  have := rhe_mono h
  rw [rhe_zero] at this
  exact this

/-- `round4` written with library operations. -/
theorem round4_def (q : ℚ) : round4 q = (rhe (q * 10000) : ℚ) / 10000 := by
  rw [round4, qMul_eq, Rat.divInt_eq_div]
  norm_num

theorem round4_mono {a b : ℚ} (h : a ≤ b) : round4 a ≤ round4 b := by
  rw [round4_def, round4_def]
  have : rhe (a * 10000) ≤ rhe (b * 10000) := rhe_mono (by linarith)
  have hc : ((rhe (a * 10000) : ℚ)) ≤ (rhe (b * 10000) : ℚ) := by exact_mod_cast this
  linarith

theorem round4_nonneg {q : ℚ} (h : 0 ≤ q) : 0 ≤ round4 q := by
  rw [round4_def]
  have : (0 : ℤ) ≤ rhe (q * 10000) := rhe_nonneg (by linarith)
  have hc : (0 : ℚ) ≤ (rhe (q * 10000) : ℚ) := by exact_mod_cast this
  linarith

theorem round4_nonpos {q : ℚ} (h : q ≤ 0) : round4 q ≤ 0 := by
  rw [round4_def]
  have : rhe (q * 10000) ≤ 0 := rhe_nonpos (by nlinarith)
  have hc : ((rhe (q * 10000) : ℚ)) ≤ 0 := by exact_mod_cast this
  linarith

/-! ## The chord scan of `get_chords_for_phrase` -/

theorem opt_elim_none_some {α : Type} (o : Option α) : o.elim none some = o := by
  cases o <;> rfl

theorem getLast?_elim_cons {α : Type} (c : α) (xs : List α) (lb : Option α) :
    ((c :: xs).getLast?).elim lb some = (xs.getLast?).elim (some c) some := by
  cases xs with
  | nil => rfl
  | cons y ys =>
    rw [List.getLast?_cons_cons,
      List.getLast?_eq_getLast (y :: ys) (List.cons_ne_nil y ys)]
    rfl

/-- The single scan collects exactly the in-window chords, in order, and
tracks the last chord strictly before the window start. -/
theorem foldl_chordStep (s e : ℚ) (l : List ChordEvent) (acc : List ChordEvent)
    (lb : Option ChordEvent) :
    l.foldl (chordStep s e) (acc, lb) =
      (acc ++ l.filter (fun c => decide (s ≤ c.onset ∧ c.onset ≤ e)),
       ((l.filter (fun c => decide (c.onset < s))).getLast?).elim lb some) := by
  induction l generalizing acc lb with
  | nil => simp
  | cons c t ih =>
    rw [List.foldl_cons]
    by_cases h1 : c.onset < s
    · rw [show chordStep s e (acc, lb) c = (acc, some c) from by
        simp [chordStep, h1]]
      rw [ih, Prod.mk.injEq]
      constructor
      · rw [List.filter_cons]
        have : ¬(s ≤ c.onset ∧ c.onset ≤ e) := fun h => absurd h.1 (not_le.mpr h1)
        simp [this]
      · have hc : (decide (c.onset < s)) = true := by simp [h1]
        rw [List.filter_cons, if_pos hc, getLast?_elim_cons c _ lb]
    · by_cases h2 : c.onset ≤ e
      · rw [show chordStep s e (acc, lb) c = (acc ++ [c], lb) from by
          simp [chordStep, h1, h2]]
        rw [ih, Prod.mk.injEq]
        constructor
        · rw [List.filter_cons]
          have : s ≤ c.onset ∧ c.onset ≤ e := ⟨not_lt.mp h1, h2⟩
          simp [this]
        · rw [List.filter_cons]
          simp [h1]
      · rw [show chordStep s e (acc, lb) c = (acc, lb) from by
          simp [chordStep, h1, h2]]
        rw [ih, Prod.mk.injEq]
        constructor
        · rw [List.filter_cons]
          have : ¬(s ≤ c.onset ∧ c.onset ≤ e) := fun h => absurd h.2 h2
          simp [this]
        · rw [List.filter_cons]
          simp [h1]

/-- `get_chords_for_phrase` computes the spec-worded alignment. -/
theorem get_chords_eq_spec (all_chords : List ChordEvent) (n0 : MelodyNote)
    (rest : List MelodyNote) :
    get_chords_for_phrase all_chords (n0 :: rest) =
      alignedChordsSpec all_chords n0.onset
        (qAdd (rest.getLastD n0).onset (rest.getLastD n0).duration) := by
  rw [get_chords_for_phrase, alignedChordsSpec]
  simp only [foldl_chordStep, List.nil_append, opt_elim_none_some]

/-! ## Ordering facts about the aligned chord list -/

theorem getLast?_onset_max (l : List ChordEvent)
    (hs : l.Pairwise (fun a b => a.onset ≤ b.onset)) {c : ChordEvent}
    (hc : l.getLast? = some c) : ∀ d ∈ l, d.onset ≤ c.onset := by
  induction l with
  | nil => cases hc
  | cons x t ih =>
    cases t with
    | nil =>
      intro d hd
      simp at hc hd
      rw [hd, hc]
    | cons y ys =>
      rw [List.getLast?_cons_cons] at hc
      intro d hd
      rcases List.mem_cons.mp hd with rfl | hd'
      · have hcm : c ∈ y :: ys := List.mem_of_getLast?_eq_some hc
        exact (List.pairwise_cons.mp hs).1 c hcm
      · exact ih hs.of_cons hc d hd'

theorem alignedChordsSpec_mem_within {all_chords : List ChordEvent} {s e : ℚ}
    {d : ChordEvent}
    (hd : d ∈ all_chords.filter (fun c => decide (s ≤ c.onset ∧ c.onset ≤ e))) :
    s ≤ d.onset ∧ d.onset ≤ e := by
  have := (List.mem_filter.mp hd).2
  exact of_decide_eq_true this

theorem alignedChordsSpec_before_onset {all_chords : List ChordEvent} {s : ℚ}
    {c : ChordEvent}
    (hc : (all_chords.filter (fun c => decide (c.onset < s))).getLast? = some c) :
    c.onset < s := by
  have hm := List.mem_of_getLast?_eq_some hc
  have := (List.mem_filter.mp hm).2
  exact of_decide_eq_true this

/-- The spec-worded alignment preserves the non-decreasing onset order. -/
theorem alignedChordsSpec_pairwise (all_chords : List ChordEvent) (s e : ℚ)
    (hs : all_chords.Pairwise (fun a b => a.onset ≤ b.onset)) :
    (alignedChordsSpec all_chords s e).Pairwise (fun a b => a.onset ≤ b.onset) := by
  have hwithin :
      (all_chords.filter (fun c => decide (s ≤ c.onset ∧ c.onset ≤ e))).Pairwise
        (fun a b => a.onset ≤ b.onset) :=
    hs.sublist (List.filter_sublist all_chords)
  rw [alignedChordsSpec]
  rcases hlast : (all_chords.filter (fun c => decide (c.onset < s))).getLast? with _ | c
  · rw [hlast]
    exact hwithin
  · have hcs : c.onset < s := alignedChordsSpec_before_onset hlast
    rw [hlast]
    rcases hw : all_chords.filter (fun c => decide (s ≤ c.onset ∧ c.onset ≤ e)) with _ | ⟨p0, ps⟩
    · rw [hw]
      exact List.pairwise_singleton _ c
    · rw [hw]
      rw [hw] at hwithin
      show ((if s < p0.onset then c :: p0 :: ps else p0 :: ps) : List ChordEvent).Pairwise
        (fun a b => a.onset ≤ b.onset)
      by_cases hp : s < p0.onset
      · rw [if_pos hp]
        refine List.pairwise_cons.mpr ⟨?_, hwithin⟩
        intro d hd
        have hdm : d ∈ all_chords.filter (fun c => decide (s ≤ c.onset ∧ c.onset ≤ e)) := by
          rw [hw]; exact hd
        have := (alignedChordsSpec_mem_within hdm).1
        linarith
      · rw [if_neg hp]
        exact hwithin

/-! ## `processBoundary` characterization -/

theorem processBoundary_none_iff (solo : Solo) (s e : Int) :
    processBoundary solo s e = none ↔
      ((phraseSlice solo.notes s e).length < MIN_PHRASE_LENGTH ∨
       MAX_PHRASE_LENGTH < (phraseSlice solo.notes s e).length) := by
  rw [processBoundary]
  split_ifs with h
  · simp [h]
  · simp [h]

theorem processBoundary_some_spec (solo : Solo) (s e : Int) (r : PhraseRecord)
    (hr : processBoundary solo s e = some r) :
    (MIN_PHRASE_LENGTH ≤ (phraseSlice solo.notes s e).length ∧
     (phraseSlice solo.notes s e).length ≤ MAX_PHRASE_LENGTH)
    ∧ r.intervals = notes_to_intervals (phraseSlice solo.notes s e)
    ∧ r.durations = notes_to_durations (phraseSlice solo.notes s e)
    ∧ r.sourceId = mkSourceId solo.melid s e
    ∧ r.chords =
        chords_to_relative
          (get_chords_for_phrase solo.chords (phraseSlice solo.notes s e))
          (phraseSlice solo.notes s e) solo.info.key
    ∧ r.metadata =
        { performer := solo.info.performer, title := solo.info.title
          key := solo.info.key
          startBar := (phraseSlice solo.notes s e).head?.map (fun n => n.bar) } := by
  rw [processBoundary] at hr
  split_ifs at hr with h
  push_neg at h
  cases hr
  exact ⟨⟨h.1, h.2⟩, rfl, rfl, rfl, rfl, rfl⟩


/-! ## Bucket map lemmas -/

theorem bucketGet_nil (k : Nat) : bucketGet [] k = [] := rfl

theorem bucketGet_cons (kv : Nat × List PhraseRecord) (rest : List (Nat × List PhraseRecord))
    (k : Nat) :
    bucketGet (kv :: rest) k = if kv.1 = k then kv.2 else bucketGet rest k := by
  by_cases h : kv.1 = k
  · rw [if_pos h, bucketGet, List.find?_cons_of_pos _ (by simp [h])]
  · rw [if_neg h, bucketGet, List.find?_cons_of_neg _ (by simp [h]), bucketGet]

theorem bucketGet_bucketAppend (m : List (Nat × List PhraseRecord)) (k : Nat)
    (v : PhraseRecord) (k' : Nat) :
    bucketGet (bucketAppend m k v) k' =
      if k' = k then bucketGet m k' ++ [v] else bucketGet m k' := by
  induction m with
  | nil =>
    by_cases h : k' = k
    · rw [bucketAppend, if_pos h, bucketGet_cons, if_pos h.symm, bucketGet_nil,
        List.nil_append]
    · rw [bucketAppend, if_neg h, bucketGet_cons, if_neg (fun hh => h hh.symm)]
  | cons kv rest ih =>
    rw [bucketAppend]
    by_cases h : kv.1 = k
    · rw [if_pos h]
      by_cases h' : k' = k
      · rw [if_pos h', bucketGet_cons, bucketGet_cons, if_pos (h.trans h'.symm),
          if_pos (h.trans h'.symm)]
      · rw [if_neg h', bucketGet_cons, bucketGet_cons,
          if_neg (fun hh => h' (hh.symm.trans h)), if_neg (fun hh => h' (hh.symm.trans h))]
    · rw [if_neg h, bucketGet_cons]
      by_cases h'' : kv.1 = k'
      · have hk : ¬ k' = k := fun hh => h (h''.trans hh)
        rw [if_pos h'', if_neg hk, bucketGet_cons, if_pos h'']
      · rw [if_neg h'', ih]
        by_cases h' : k' = k
        · rw [if_pos h', if_pos h', bucketGet_cons, if_neg h'']
        · rw [if_neg h', if_neg h', bucketGet_cons, if_neg h'']

theorem mem_keys_bucketAppend (m : List (Nat × List PhraseRecord)) (k : Nat)
    (v : PhraseRecord) (k' : Nat) :
    k' ∈ (bucketAppend m k v).map Prod.fst ↔ k' ∈ m.map Prod.fst ∨ k' = k := by
  induction m with
  | nil => simp [bucketAppend]
  | cons kv rest ih =>
    rw [bucketAppend]
    by_cases h : kv.1 = k
    · simp only [if_pos h, List.map_cons, List.mem_cons]
      constructor
      · rintro (hh | hh)
        · exact Or.inl (Or.inl hh)
        · exact Or.inl (Or.inr hh)
      · rintro ((hh | hh) | hh)
        · exact Or.inl hh
        · exact Or.inr hh
        · exact Or.inl (h.trans hh.symm ▸ rfl)
    · simp only [if_neg h, List.map_cons, List.mem_cons, ih]
      tauto

theorem nodup_keys_bucketAppend (m : List (Nat × List PhraseRecord)) (k : Nat)
    (v : PhraseRecord) (hn : (m.map Prod.fst).Nodup) :
    ((bucketAppend m k v).map Prod.fst).Nodup := by
  induction m with
  | nil => simp [bucketAppend]
  | cons kv rest ih =>
    rw [bucketAppend]
    rw [List.map_cons, List.nodup_cons] at hn
    by_cases h : kv.1 = k
    · rw [if_pos h, List.map_cons, List.nodup_cons]
      exact ⟨hn.1, hn.2⟩
    · rw [if_neg h, List.map_cons, List.nodup_cons]
      refine ⟨?_, ih hn.2⟩
      intro hmem
      rcases (mem_keys_bucketAppend rest k v kv.1).mp hmem with hh | hh
      · exact hn.1 hh
      · exact h hh

/-! ## Replaying the accumulation over the flat emission list -/

theorem bucketGet_foldl (l : List (Nat × PhraseRecord)) (m : List (Nat × List PhraseRecord))
    (k : Nat) :
    bucketGet (l.foldl (fun m p => bucketAppend m p.1 p.2) m) k =
      bucketGet m k ++ (l.filter (fun p => p.1 == k)).map Prod.snd := by
  induction l generalizing m with
  | nil => simp
  | cons p t ih =>
    rw [List.foldl_cons, ih, bucketGet_bucketAppend, List.filter_cons]
    by_cases h : p.1 = k
    · rw [if_pos h.symm, if_pos (by simp [h]), List.map_cons, List.append_assoc]
      rfl
    · rw [if_neg (fun hh => h hh.symm), if_neg (by simp [h])]

theorem mem_keys_foldl (l : List (Nat × PhraseRecord)) (m : List (Nat × List PhraseRecord))
    (k : Nat) :
    k ∈ ((l.foldl (fun m p => bucketAppend m p.1 p.2) m).map Prod.fst) ↔
      k ∈ m.map Prod.fst ∨ ∃ p ∈ l, p.1 = k := by
  induction l generalizing m with
  | nil => simp
  | cons p t ih =>
    rw [List.foldl_cons, ih]
    rw [mem_keys_bucketAppend]
    simp only [List.mem_cons]
    constructor
    · rintro ((hh | hh) | ⟨q, hq, hqk⟩)
      · exact Or.inl hh
      · exact Or.inr ⟨p, Or.inl rfl, hh.symm⟩
      · exact Or.inr ⟨q, Or.inr hq, hqk⟩
    · rintro (hh | ⟨q, (rfl | hq), hqk⟩)
      · exact Or.inl (Or.inl hh)
      · exact Or.inl (Or.inr hqk.symm)
      · exact Or.inr ⟨q, hq, hqk⟩

theorem nodup_keys_foldl (l : List (Nat × PhraseRecord)) (m : List (Nat × List PhraseRecord))
    (hn : (m.map Prod.fst).Nodup) :
    ((l.foldl (fun m p => bucketAppend m p.1 p.2) m).map Prod.fst).Nodup := by
  induction l generalizing m with
  | nil => exact hn
  | cons p t ih => exact ih _ (nodup_keys_bucketAppend _ _ _ hn)

/-- Unfolding of one boundary loop over a whole boundary list. -/
theorem foldl_stepBoundary (solo : Solo) (bs : List (Int × Int)) (st : ExtractState) :
    bs.foldl (stepBoundary solo) st =
      { buckets :=
          (bs.filterMap (fun b =>
            (processBoundary solo b.1 b.2).map
              (fun r => ((phraseSlice solo.notes b.1 b.2).length, r)))).foldl
            (fun m p => bucketAppend m p.1 p.2) st.buckets
        total := st.total +
          (bs.filterMap (fun b =>
            (processBoundary solo b.1 b.2).map
              (fun r => ((phraseSlice solo.notes b.1 b.2).length, r)))).length
        skippedLength := st.skippedLength +
          bs.countP (fun b => (processBoundary solo b.1 b.2).isNone) } := by
  induction bs generalizing st with
  | nil => simp
  | cons b t ih =>
    rcases hb : processBoundary solo b.1 b.2 with _ | r
    · rw [List.foldl_cons,
        show stepBoundary solo st b = { st with skippedLength := st.skippedLength + 1 } from by
          rw [stepBoundary, hb],
        ih]
      simp only [List.filterMap_cons, hb, Option.map_none', List.countP_cons,
        Option.isNone_none, if_true, eq_self_iff_true]
      rw [ExtractState.mk.injEq]
      refine ⟨rfl, rfl, ?_⟩
      omega
    · rw [List.foldl_cons,
        show stepBoundary solo st b =
            { st with
              buckets := bucketAppend st.buckets (phraseSlice solo.notes b.1 b.2).length r
              total := st.total + 1 } from by rw [stepBoundary, hb],
        ih]
      simp only [List.filterMap_cons, hb, Option.map_some', List.countP_cons,
        Option.isNone_some, List.foldl_cons, List.length_cons, Bool.false_eq_true,
        if_false]
      rw [ExtractState.mk.injEq]
      refine ⟨rfl, ?_, ?_⟩
      · omega
      · omega

/-- Unfolding of the whole run into one pass over the flat emission list. -/
theorem foldl_extractSolo (solos : List Solo) (st : ExtractState) :
    solos.foldl extractSolo st =
      { buckets := (emittedWithLen solos).foldl (fun m p => bucketAppend m p.1 p.2) st.buckets
        total := st.total + (emittedWithLen solos).length
        skippedLength := st.skippedLength + skippedCount solos } := by
  induction solos generalizing st with
  | nil => simp [emittedWithLen, skippedCount]
  | cons so t ih =>
    rw [List.foldl_cons,
      show extractSolo st so = so.boundaries.foldl (stepBoundary so) st from rfl,
      foldl_stepBoundary, ih]
    have hemit : emittedWithLen (so :: t) = emittedOfSolo so ++ emittedWithLen t := by
      rw [emittedWithLen, List.flatMap_cons, emittedWithLen]
    have hskip : skippedCount (so :: t) =
        so.boundaries.countP (fun b => (processBoundary so b.1 b.2).isNone) + skippedCount t := by
      rw [skippedCount, List.map_cons, List.sum_cons, skippedCount]
    rw [hemit, hskip, List.foldl_append, ExtractState.mk.injEq]
    dsimp only
    refine ⟨rfl, ?_, ?_⟩
    · rw [List.length_append, emittedOfSolo]
      omega
    · omega

/-- The final state of the accumulation phase, in closed form. -/
theorem extractState_eq (solos : List Solo) :
    extractState solos =
      { buckets := buildBuckets (emittedWithLen solos)
        total := (emittedWithLen solos).length
        skippedLength := skippedCount solos } := by
  rw [extractState, foldl_extractSolo, buildBuckets]
  dsimp only
  rw [ExtractState.mk.injEq]
  exact ⟨rfl, by omega, by omega⟩

/-! ## Sorting the bucket items -/

theorem insertByKey_perm (p : Nat × List PhraseRecord) (l : List (Nat × List PhraseRecord)) :
    (insertByKey p l).Perm (p :: l) := by
  induction l with
  | nil => exact List.Perm.refl _
  | cons q t ih =>
    rw [insertByKey]
    by_cases h : p.1 ≤ q.1
    · rw [if_pos h]
    · rw [if_neg h]
      exact (ih.cons q).trans (List.Perm.swap p q t)

theorem sortByKey_perm (l : List (Nat × List PhraseRecord)) : (sortByKey l).Perm l := by
  induction l with
  | nil => exact List.Perm.refl _
  | cons p t ih => exact (insertByKey_perm p (sortByKey t)).trans (ih.cons p)

theorem insertByKey_pairwise (p : Nat × List PhraseRecord)
    (l : List (Nat × List PhraseRecord))
    (h : l.Pairwise (fun a b => a.1 ≤ b.1)) :
    (insertByKey p l).Pairwise (fun a b => a.1 ≤ b.1) := by
  induction l with
  | nil => exact List.pairwise_singleton _ p
  | cons q t ih =>
    rw [insertByKey]
    by_cases hpq : p.1 ≤ q.1
    · rw [if_pos hpq]
      refine List.pairwise_cons.mpr ⟨?_, h⟩
      intro d hd
      rcases List.mem_cons.mp hd with rfl | hd'
      · exact hpq
      · exact le_trans hpq ((List.pairwise_cons.mp h).1 d hd')
    · rw [if_neg hpq]
      refine List.pairwise_cons.mpr ⟨?_, ih h.of_cons⟩
      intro d hd
      have hd' : d ∈ p :: t := (insertByKey_perm p t).mem_iff.mp hd
      rcases List.mem_cons.mp hd' with rfl | hd''
      · exact le_of_not_le hpq
      · exact (List.pairwise_cons.mp h).1 d hd''

theorem sortByKey_pairwise (l : List (Nat × List PhraseRecord)) :
    (sortByKey l).Pairwise (fun a b => a.1 ≤ b.1) := by
  induction l with
  | nil => exact List.Pairwise.nil
  | cons p t ih => exact insertByKey_pairwise p (sortByKey t) ih

theorem bucketGet_of_mem_nodup {m : List (Nat × List PhraseRecord)} {k : Nat}
    {v : List PhraseRecord} (hn : (m.map Prod.fst).Nodup) (hm : (k, v) ∈ m) :
    bucketGet m k = v := by
  induction m with
  | nil => cases hm
  | cons kv rest ih =>
    rw [List.map_cons, List.nodup_cons] at hn
    rcases List.mem_cons.mp hm with rfl | hm'
    · rw [bucketGet_cons, if_pos rfl]
    · rw [bucketGet_cons]
      by_cases h : kv.1 = k
      · exfalso
        apply hn.1
        rw [h]
        exact List.mem_map.mpr ⟨(k, v), hm', rfl⟩
      · rw [if_neg h]
        exact ih hn.2 hm'

/-! ## Closed form of the output document -/

theorem buildBuckets_keys_nodup (l : List (Nat × PhraseRecord)) :
    ((buildBuckets l).map Prod.fst).Nodup := by
  rw [buildBuckets]
  exact nodup_keys_foldl l [] (by simp)

theorem bucketGet_buildBuckets (l : List (Nat × PhraseRecord)) (k : Nat) :
    bucketGet (buildBuckets l) k = (l.filter (fun p => p.1 == k)).map Prod.snd := by
  rw [buildBuckets, bucketGet_foldl, bucketGet_nil, List.nil_append]

theorem extractPhrases_eq (solos : List Solo) :
    extractPhrases solos =
      ((sortByKey (buildBuckets (emittedWithLen solos))).map Prod.fst).map
        (fun k => (toString k,
          ((emittedWithLen solos).filter (fun p => p.1 == k)).map Prod.snd)) := by
  rw [extractPhrases, extractState_eq]
  dsimp only
  rw [List.map_map]
  apply List.map_congr_left
  intro kv hkv
  have hmem : kv ∈ buildBuckets (emittedWithLen solos) :=
    (sortByKey_perm _).mem_iff.mp hkv
  have hget : bucketGet (buildBuckets (emittedWithLen solos)) kv.1 = kv.2 :=
    bucketGet_of_mem_nodup (buildBuckets_keys_nodup _) (by rw [Prod.mk.eta]; exact hmem)
  have hfilter := bucketGet_buildBuckets (emittedWithLen solos) kv.1
  rw [hget] at hfilter
  rw [Function.comp_apply, ← hfilter]

theorem mem_keys_output (solos : List Solo) (k : Nat) :
    k ∈ (sortByKey (buildBuckets (emittedWithLen solos))).map Prod.fst ↔
      ∃ p ∈ emittedWithLen solos, p.1 = k := by
  rw [((sortByKey_perm (buildBuckets (emittedWithLen solos))).map Prod.fst).mem_iff,
    buildBuckets, mem_keys_foldl]
  simp

theorem output_keys_sorted (solos : List Solo) :
    ((sortByKey (buildBuckets (emittedWithLen solos))).map Prod.fst).Pairwise (· < ·) := by
  have hle : ((sortByKey (buildBuckets (emittedWithLen solos))).map Prod.fst).Pairwise (· ≤ ·) :=
    (sortByKey_pairwise _).map Prod.fst (fun a b h => h)
  have hnd : ((sortByKey (buildBuckets (emittedWithLen solos))).map Prod.fst).Nodup :=
    (((sortByKey_perm _).map Prod.fst).nodup_iff).mpr (buildBuckets_keys_nodup _)
  exact (hle.and hnd).imp (fun h => lt_of_le_of_ne h.1 h.2)

theorem mem_output_of_emitted (solos : List Solo) (k : Nat) (r : PhraseRecord)
    (h : (k, r) ∈ emittedWithLen solos) :
    ∃ kb ∈ extractPhrases solos, r ∈ kb.2 := by
  rw [extractPhrases_eq]
  refine ⟨(toString k, ((emittedWithLen solos).filter (fun p => p.1 == k)).map Prod.snd),
    List.mem_map.mpr ⟨k, (mem_keys_output solos k).mpr ⟨(k, r), h, rfl⟩, rfl⟩, ?_⟩
  exact List.mem_map.mpr ⟨(k, r), List.mem_filter.mpr ⟨h, by simp⟩, rfl⟩

theorem emitted_of_mem_output (solos : List Solo) (kb : String × List PhraseRecord)
    (r : PhraseRecord) (hkb : kb ∈ extractPhrases solos) (hr : r ∈ kb.2) :
    ∃ p ∈ emittedWithLen solos, p.2 = r := by
  rw [extractPhrases_eq] at hkb
  obtain ⟨k, hk, rfl⟩ := List.mem_map.mp hkb
  obtain ⟨p, hp, hpr⟩ := List.mem_map.mp hr
  exact ⟨p, (List.mem_filter.mp hp).1, hpr⟩

theorem emitted_mem (solos : List Solo) (solo : Solo) (hs : solo ∈ solos)
    (b : Int × Int) (hb : b ∈ solo.boundaries) (r : PhraseRecord)
    (hr : processBoundary solo b.1 b.2 = some r) :
    ((phraseSlice solo.notes b.1 b.2).length, r) ∈ emittedWithLen solos := by
  rw [emittedWithLen]
  refine List.mem_flatMap.mpr ⟨solo, hs, ?_⟩
  rw [emittedOfSolo]
  exact List.mem_filterMap.mpr ⟨b, hb, by rw [hr]; rfl⟩

theorem emitted_src (solos : List Solo) (p : Nat × PhraseRecord)
    (hp : p ∈ emittedWithLen solos) :
    ∃ solo ∈ solos, ∃ b ∈ solo.boundaries,
      processBoundary solo b.1 b.2 = some p.2 ∧
      p.1 = (phraseSlice solo.notes b.1 b.2).length := by
  rw [emittedWithLen] at hp
  obtain ⟨solo, hs, hmem⟩ := List.mem_flatMap.mp hp
  rw [emittedOfSolo] at hmem
  obtain ⟨b, hb, hmap⟩ := List.mem_filterMap.mp hmem
  rcases hh : processBoundary solo b.1 b.2 with _ | r
  · rw [hh] at hmap
    cases hmap
  · rw [hh] at hmap
    rw [Option.map_some'] at hmap
    cases hmap
    exact ⟨solo, hs, b, hb, by rw [hh], rfl⟩

/-! ## Normalizer lemmas -/

theorem notes_to_intervals_length (ns : List MelodyNote) :
    (notes_to_intervals ns).length = ns.length := by
  cases ns <;> simp [notes_to_intervals]

theorem notes_to_durations_length (ns : List MelodyNote) :
    (notes_to_durations ns).length = ns.length := by
  simp [notes_to_durations]

theorem chords_to_relative_cons (chords : List ChordEvent) (n0 : MelodyNote)
    (rest : List MelodyNote) (k : String) :
    chords_to_relative chords (n0 :: rest) k =
      chords.map (fun c =>
        { offset := round4 (qSub c.onset n0.onset), chord := c.chord,
          bass := c.bass_pitch }) := by
  cases chords with
  | nil => rfl
  | cons c0 cs => rfl

theorem phraseSlice_nil_of_start_oob (all_notes : List MelodyNote) (s e : Int)
    (hs : (all_notes.length : Int) ≤ s) : phraseSlice all_notes s e = [] := by
  rw [phraseSlice]
  rw [List.filterMap_eq_nil_iff]
  intro idx hidx
  rw [intRange] at hidx
  obtain ⟨i, hi, rfl⟩ := List.mem_map.mp hidx
  rw [noteAt]
  have h1 : (0 : Int) ≤ (all_notes.length : Int) := by exact_mod_cast Nat.zero_le _
  have h2 : (0 : Int) ≤ (i : Int) := by exact_mod_cast Nat.zero_le _
  have h0 : (0 : Int) ≤ s + i := by linarith
  have hlen : ¬ ((s + (i : Int)).toNat < all_notes.length) := by
    intro hcon
    have h3 : ((s + (i : Int)).toNat : Int) < (all_notes.length : Int) := by exact_mod_cast hcon
    rw [Int.toNat_of_nonneg h0] at h3
    linarith
  rw [dif_neg]
  intro hcon
  exact hlen hcon.2

/-! ## Claim theorems -/

/-- C1: for every non-empty note slice and chord list ordered non-decreasing by
onset, chord alignment returns exactly the chords with onset in the closed
window `[start, end]` (where `start` is the first note's onset and `end` the
last note's onset plus duration), in input order, prepending the chord with
the greatest onset strictly below `start` if and only if one exists and either
nothing was collected or the first collected chord starts strictly after
`start`. -/
theorem claim1_chord_alignment (all_chords : List ChordEvent)
    (phrase_notes : List MelodyNote) (hne : phrase_notes ≠ [])
    (hsorted : all_chords.Pairwise (fun a b => a.onset ≤ b.onset)) :
    get_chords_for_phrase all_chords phrase_notes =
      alignedChordsSpec all_chords (phrase_notes.head hne).onset
        (qAdd (phrase_notes.getLast hne).onset (phrase_notes.getLast hne).duration)
    ∧ ∀ c : ChordEvent,
        (all_chords.filter
          (fun d => decide (d.onset < (phrase_notes.head hne).onset))).getLast? = some c →
        c ∈ all_chords ∧ c.onset < (phrase_notes.head hne).onset ∧
        ∀ d ∈ all_chords, d.onset < (phrase_notes.head hne).onset → d.onset ≤ c.onset := by
  cases phrase_notes with
  | nil => cases hne rfl
  | cons n0 rest =>
    constructor
    · rw [show (n0 :: rest).head (List.cons_ne_nil n0 rest) = n0 from rfl,
        List.getLast_eq_getLastD]
      exact get_chords_eq_spec all_chords n0 rest
    · intro c hc
      have hcm := List.mem_of_getLast?_eq_some hc
      have hcf := List.mem_filter.mp hcm
      refine ⟨hcf.1, of_decide_eq_true hcf.2, ?_⟩
      intro d hd hdlt
      have hdf : d ∈ all_chords.filter
          (fun d => decide (d.onset < ((n0 :: rest).head (List.cons_ne_nil n0 rest)).onset)) :=
        List.mem_filter.mpr ⟨hd, decide_eq_true hdlt⟩
      exact getLast?_onset_max _ (hsorted.sublist (List.filter_sublist _)) hc d hdf

/-- C4: each interval is the truncated pitch of the i-th note minus the
truncated pitch of the first note, so the first interval is 0. -/
theorem claim4_intervals (notes : List MelodyNote) (hne : notes ≠ []) :
    (∀ i : Nat, (notes_to_intervals notes).get? i =
        (notes.get? i).map (fun n => pyInt n.pitch - pyInt (notes.head hne).pitch))
    ∧ (notes_to_intervals notes).get? 0 = some 0 := by
  cases notes with
  | nil => cases hne rfl
  | cons n0 rest =>
    constructor
    · intro i
      rw [notes_to_intervals, List.get?_map,
        show (n0 :: rest).head (List.cons_ne_nil n0 rest) = n0 from rfl]
    · rw [notes_to_intervals, List.get?_map]
      simp

/-- C6: the worked example of the spec produces exactly one three-note phrase
with intervals `[0, 3, 7]`, durations `[0.5, 0.5, 0.5]` and the carried-over
chord `Cmaj7` at offset `-1`. -/
theorem claim6_worked_example : extractPhrases [exSolo] = [("3", [exRecord])] := by decide

/-- C8: the pipeline is deterministic — equal corpora produce equal bucket
mappings and equal final statistics. -/
theorem claim8_deterministic (solos1 solos2 : List Solo) (h : solos1 = solos2) :
    extractPhrases solos1 = extractPhrases solos2 ∧
    extractState solos1 = extractState solos2 := by
  rw [h]
  exact ⟨rfl, rfl⟩

/-- C9: chord alignment of a non-empty note slice against an empty chord
timeline is the empty list (and raises no error: the function is total). -/
theorem claim9_empty_timeline (phrase_notes : List MelodyNote) (hne : phrase_notes ≠ []) :
    get_chords_for_phrase [] phrase_notes = [] := by
  cases phrase_notes with
  | nil => cases hne rfl
  | cons n0 rest => rfl

/-- C2 counterexample: the boundary `(0, 5)` of a three-note solo references
positions 3..5 beyond the note list, yet the run emits a phrase for it (the
record with sourceId `wjd:2:0-5` appears in a bucket), so such a boundary is
not always absent from the output. -/
theorem claim2_counterexample :
    (0, 5) ∈ overrunSolo.boundaries ∧ (overrunSolo.notes.length : Int) ≤ 5 ∧
    ∃ kb ∈ extractPhrases [overrunSolo], ∃ r ∈ kb.2, r.sourceId = "wjd:2:0-5" := by decide

/-- C2 amended: a boundary pair referencing an index beyond the note list
raises no error; out-of-range indices simply contribute no note, the boundary
contributes a record (which then appears in a bucket) exactly when the
resolved slice length lies in `[MIN, MAX]`, and in particular a boundary whose
start index is already beyond the note list contributes nothing. -/
theorem claim2_amended (solos : List Solo) (solo : Solo) (hs : solo ∈ solos)
    (s e : Int) (hb : (s, e) ∈ solo.boundaries)
    (hidx : (solo.notes.length : Int) ≤ e) :
    (∀ r : PhraseRecord, processBoundary solo s e = some r →
        ∃ kb ∈ extractPhrases solos, r ∈ kb.2)
    ∧ (processBoundary solo s e = none ↔
        ((phraseSlice solo.notes s e).length < MIN_PHRASE_LENGTH ∨
         MAX_PHRASE_LENGTH < (phraseSlice solo.notes s e).length))
    ∧ ((solo.notes.length : Int) ≤ s → processBoundary solo s e = none) := by
  refine ⟨?_, processBoundary_none_iff solo s e, ?_⟩
  · intro r hr
    exact mem_output_of_emitted solos _ r (emitted_mem solos solo hs (s, e) hb r hr)
  · intro hstart
    rw [processBoundary_none_iff, phraseSlice_nil_of_start_oob solo.notes s e hstart]
    left
    simp [MIN_PHRASE_LENGTH]

/-- C3: every record of the output has between MIN and MAX intervals, with as
many durations as intervals; the length-skip counter equals the number of
boundaries whose resolved slice length falls outside `[MIN, MAX]`, and such a
boundary contributes no record. -/
theorem claim3_length_invariants (solos : List Solo) :
    (∀ kb ∈ extractPhrases solos, ∀ r ∈ kb.2,
        (MIN_PHRASE_LENGTH ≤ r.intervals.length ∧ r.intervals.length ≤ MAX_PHRASE_LENGTH)
        ∧ r.durations.length = r.intervals.length)
    ∧ (extractState solos).skippedLength =
        (solos.map (fun solo => solo.boundaries.countP (fun b =>
          decide ((phraseSlice solo.notes b.1 b.2).length < MIN_PHRASE_LENGTH ∨
            MAX_PHRASE_LENGTH < (phraseSlice solo.notes b.1 b.2).length)))).sum
    ∧ (∀ solo : Solo, ∀ s e : Int,
        ((phraseSlice solo.notes s e).length < MIN_PHRASE_LENGTH ∨
         MAX_PHRASE_LENGTH < (phraseSlice solo.notes s e).length) →
        processBoundary solo s e = none) := by
  refine ⟨?_, ?_, ?_⟩
  · intro kb hkb r hr
    obtain ⟨p, hp, hpr⟩ := emitted_of_mem_output solos kb r hkb hr
    obtain ⟨solo, hsolo, b, hb, hproc, hlen⟩ := emitted_src solos p hp
    rw [hpr] at hproc
    obtain ⟨⟨hmin, hmax⟩, hint, hdur, -, -, -⟩ := processBoundary_some_spec _ _ _ _ hproc
    rw [hint, hdur, notes_to_intervals_length, notes_to_durations_length]
    exact ⟨⟨hmin, hmax⟩, rfl⟩
  · rw [extractState_eq]
    dsimp only
    rw [skippedCount]
    congr 1
    apply List.map_congr_left
    intro solo hsolo
    apply List.countP_congr
    intro b hb
    rw [Option.isNone_iff_eq_none, processBoundary_none_iff, decide_eq_true_eq]
  · intro solo s e h
    exact (processBoundary_none_iff solo s e).mpr h

/-- C5: under a chord list ordered non-decreasing by onset, an emitted
record's chord offsets are non-decreasing, and the first offset is at most 0
when the first aligned chord starts before the phrase and at least 0
otherwise. -/
theorem claim5_offsets (solo : Solo) (s e : Int) (r : PhraseRecord)
    (hsorted : solo.chords.Pairwise (fun a b => a.onset ≤ b.onset))
    (hr : processBoundary solo s e = some r) :
    List.Chain' (· ≤ ·) (r.chords.map (fun rc => rc.offset))
    ∧ ∀ n0 ∈ (phraseSlice solo.notes s e).head?,
        ∀ c0 ∈ (get_chords_for_phrase solo.chords (phraseSlice solo.notes s e)).head?,
          ∀ r0 ∈ r.chords.head?,
            (c0.onset < n0.onset → r0.offset ≤ 0) ∧
            (n0.onset ≤ c0.onset → 0 ≤ r0.offset) := by
  obtain ⟨⟨hmin, hmax⟩, hint, hdur, hsrc, hch, hmeta⟩ := processBoundary_some_spec solo s e r hr
  rcases hsl : phraseSlice solo.notes s e with _ | ⟨m0, ms⟩
  · rw [hsl] at hmin
    simp [MIN_PHRASE_LENGTH] at hmin
  · rw [hsl] at hch
    have haligned : (get_chords_for_phrase solo.chords (m0 :: ms)).Pairwise
        (fun a b => a.onset ≤ b.onset) := by
      rw [get_chords_eq_spec]
      exact alignedChordsSpec_pairwise _ _ _ hsorted
    rw [chords_to_relative_cons] at hch
    constructor
    · rw [hch, List.map_map]
      refine List.Pairwise.chain' ?_
      refine (List.pairwise_map).mpr ?_
      refine haligned.imp ?_
      intro a b hab
      show round4 (qSub a.onset m0.onset) ≤ round4 (qSub b.onset m0.onset)
      rw [qSub_eq, qSub_eq]
      exact round4_mono (by linarith)
    · intro n0 hn0 c0 hc0 r0 hr0
      have hn0' : m0 = n0 := by
        rw [List.head?_cons, Option.mem_def, Option.some.injEq] at hn0
        exact hn0
      subst hn0'
      have hch' : r.chords.head? =
          some { offset := round4 (qSub c0.onset m0.onset), chord := c0.chord,
                 bass := c0.bass_pitch } := by
        rw [hch, List.head?_map, Option.mem_def.mp hc0, Option.map_some']
      rw [hch', Option.mem_def, Option.some.injEq] at hr0
      subst hr0
      constructor
      · intro hlt
        show round4 (qSub c0.onset m0.onset) ≤ 0
        rw [qSub_eq]
        exact round4_nonpos (by linarith)
      · intro hle
        show (0 : ℚ) ≤ round4 (qSub c0.onset m0.onset)
        rw [qSub_eq]
        exact round4_nonneg (by linarith)

/-- C7: the output keys are the decimal encodings of the occurring note
counts, in ascending numeric order, and every bucket lists its records in
discovery order (the order of the flat emission list). -/
theorem claim7_output_ordering (solos : List Solo) :
    (∀ p ∈ emittedWithLen solos, p.1 = p.2.intervals.length)
    ∧ ∃ ks : List Nat,
        ks.Pairwise (· < ·) ∧
        (∀ k : Nat, k ∈ ks ↔ ∃ p ∈ emittedWithLen solos, p.1 = k) ∧
        extractPhrases solos =
          ks.map (fun k => (toString k,
            ((emittedWithLen solos).filter (fun p => p.1 == k)).map Prod.snd)) := by
  constructor
  · intro p hp
    obtain ⟨solo, hsolo, b, hb, hproc, hlen⟩ := emitted_src solos p hp
    obtain ⟨-, hint, -, -, -, -⟩ := processBoundary_some_spec _ _ _ _ hproc
    rw [hlen, hint, notes_to_intervals_length]
  · exact ⟨(sortByKey (buildBuckets (emittedWithLen solos))).map Prod.fst,
      output_keys_sorted solos, fun k => mem_keys_output solos k, extractPhrases_eq solos⟩

/-- C10: every emitted record's startBar is the bar of the slice's first note
and is never null, because the length filter guarantees a non-empty slice. -/
theorem claim10_startBar (solos : List Solo) :
    (∀ kb ∈ extractPhrases solos, ∀ r ∈ kb.2, r.metadata.startBar ≠ none)
    ∧ (∀ solo : Solo, ∀ s e : Int, ∀ r : PhraseRecord,
        processBoundary solo s e = some r →
        ∃ n0 ∈ (phraseSlice solo.notes s e).head?, r.metadata.startBar = some n0.bar) := by
  have hsecond : ∀ solo : Solo, ∀ s e : Int, ∀ r : PhraseRecord,
      processBoundary solo s e = some r →
      ∃ n0 ∈ (phraseSlice solo.notes s e).head?, r.metadata.startBar = some n0.bar := by
    intro solo s e r hr
    obtain ⟨⟨hmin, -⟩, -, -, -, -, hmeta⟩ := processBoundary_some_spec _ _ _ _ hr
    rcases hsl : phraseSlice solo.notes s e with _ | ⟨m0, ms⟩
    · rw [hsl] at hmin
      simp [MIN_PHRASE_LENGTH] at hmin
    · refine ⟨m0, by rw [List.head?_cons]; rfl, ?_⟩
      rw [hmeta, hsl]
      rfl
  refine ⟨?_, hsecond⟩
  intro kb hkb r hr
  obtain ⟨p, hp, hpr⟩ := emitted_of_mem_output solos kb r hkb hr
  obtain ⟨solo, hsolo, b, hb, hproc, -⟩ := emitted_src solos p hp
  rw [hpr] at hproc
  obtain ⟨n0, -, hbar⟩ := hsecond solo b.1 b.2 r hproc
  rw [hbar]
  simp

/-- Witness for C1 at the worked example's notes and a single early chord. -/
theorem claim1_witness :
    (exNotes ≠ [] ∧ [exChord].Pairwise (fun a b => a.onset ≤ b.onset))
    ∧ (get_chords_for_phrase [exChord] exNotes =
        alignedChordsSpec [exChord] (exNotes.head (by decide)).onset
          (qAdd (exNotes.getLast (by decide)).onset (exNotes.getLast (by decide)).duration)
      ∧ ∀ c : ChordEvent,
          ([exChord].filter
            (fun d => decide (d.onset < (exNotes.head (by decide)).onset))).getLast? =
              some c →
          c ∈ [exChord] ∧ c.onset < (exNotes.head (by decide)).onset ∧
          ∀ d ∈ [exChord], d.onset < (exNotes.head (by decide)).onset →
            d.onset ≤ c.onset) :=
  ⟨⟨by decide, by decide⟩, claim1_chord_alignment [exChord] exNotes (by decide) (by decide)⟩

/-- Witness for the amended C2 at the overrunning boundary `(0, 5)`. -/
theorem claim2_witness :
    (overrunSolo ∈ [overrunSolo] ∧ (0, 5) ∈ overrunSolo.boundaries ∧
      ((overrunSolo.notes.length : Int) ≤ 5))
    ∧ ((∀ r : PhraseRecord, processBoundary overrunSolo 0 5 = some r →
          ∃ kb ∈ extractPhrases [overrunSolo], r ∈ kb.2)
      ∧ (processBoundary overrunSolo 0 5 = none ↔
          ((phraseSlice overrunSolo.notes 0 5).length < MIN_PHRASE_LENGTH ∨
           MAX_PHRASE_LENGTH < (phraseSlice overrunSolo.notes 0 5).length))
      ∧ ((overrunSolo.notes.length : Int) ≤ 0 → processBoundary overrunSolo 0 5 = none)) :=
  ⟨⟨by decide, by decide, by decide⟩,
    claim2_amended [overrunSolo] overrunSolo (by decide) 0 5 (by decide) (by decide)⟩

/-- Witness for C4 at the worked example's notes. -/
theorem claim4_witness :
    (exNotes ≠ [])
    ∧ ((∀ i : Nat, (notes_to_intervals exNotes).get? i =
          (exNotes.get? i).map (fun n => pyInt n.pitch - pyInt (exNotes.head (by decide)).pitch))
      ∧ (notes_to_intervals exNotes).get? 0 = some 0) :=
  ⟨by decide, claim4_intervals exNotes (by decide)⟩

/-- Witness for C5 at the worked example's solo and its unique record. -/
theorem claim5_witness :
    (exSolo.chords.Pairwise (fun a b => a.onset ≤ b.onset) ∧
      processBoundary exSolo 0 2 = some exRecord)
    ∧ (List.Chain' (· ≤ ·) (exRecord.chords.map (fun rc => rc.offset))
      ∧ ∀ n0 ∈ (phraseSlice exSolo.notes 0 2).head?,
          ∀ c0 ∈ (get_chords_for_phrase exSolo.chords (phraseSlice exSolo.notes 0 2)).head?,
            ∀ r0 ∈ exRecord.chords.head?,
              (c0.onset < n0.onset → r0.offset ≤ 0) ∧
              (n0.onset ≤ c0.onset → 0 ≤ r0.offset)) :=
  ⟨⟨by decide, by decide⟩, claim5_offsets exSolo 0 2 exRecord (by decide) (by decide)⟩

/-- Witness for C8 at the worked example's corpus. -/
theorem claim8_witness :
    ([exSolo] = [exSolo])
    ∧ (extractPhrases [exSolo] = extractPhrases [exSolo] ∧
       extractState [exSolo] = extractState [exSolo]) :=
  ⟨rfl, claim8_deterministic [exSolo] [exSolo] rfl⟩

/-- Witness for C9 at the worked example's notes. -/
theorem claim9_witness :
    (exNotes ≠ []) ∧ get_chords_for_phrase [] exNotes = [] :=
  ⟨by decide, claim9_empty_timeline exNotes (by decide)⟩
